import Mathlib

/-!
Verification of the `bs-list-utils` keyed list operations.

The Rust code stores elements in a `std::collections::BTreeMap`.  We model a
`BTreeMap K V` by its sorted entry list `List (K × V)` (keys strictly
ascending), which is exactly the order in which the Rust map iterates.  The
operations `mInsert`, `mLookup`, `mRemove` mirror `BTreeMap::insert`,
`BTreeMap::get` and `BTreeMap::remove`.  The trait `HasItemKey` is modelled by
an explicit key-extraction function `key : T → K`.
-/

namespace BsListUtils

variable {K : Type} [LinearOrder K] {V : Type} {T : Type}

variable {L R A I : Type}

/-- Sorted-association-list model of `BTreeMap::insert`: returns the new map
and the previous value stored under the key, if any. -/
def mInsert (k : K) (v : V) : List (K × V) → List (K × V) × Option V
  | [] => ([(k, v)], none)
  | (k1, v1) :: rest =>
    if k < k1 then ((k, v) :: (k1, v1) :: rest, none)
    else if k = k1 then ((k, v) :: rest, some v1)
    else
      let p := mInsert k v rest
      ((k1, v1) :: p.1, p.2)

/-- Model of `BTreeMap::get`: first entry with the given key. -/
def mLookup (k : K) : List (K × V) → Option V
  | [] => none
  | (k1, v1) :: rest => if k = k1 then some v1 else mLookup k rest

/-- Model of `BTreeMap::remove`: deletes the first entry with the given key
and returns it. -/
def mRemove (k : K) : List (K × V) → List (K × V) × Option V
  | [] => ([], none)
  | (k1, v1) :: rest =>
    if k = k1 then (rest, some v1)
    else
      let p := mRemove k rest
      ((k1, v1) :: p.1, p.2)

/-- The `BTreeMap` invariant: entry keys strictly ascending. -/
def mSorted (m : List (K × V)) : Prop :=
  (m.map Prod.fst).Sorted (· < ·)

/-- The counting loop of `get_dups`: `map.entry(key).or_insert(0); *value += 1`. -/
def dupScan (key : T → K) : List T → List (K × Nat) → List (K × Nat)
  | [], m => m
  | x :: xs, m =>
    dupScan key xs (mInsert (key x) ((mLookup (key x) m).getD 0 + 1) m).1

/-- Rust `get_dups`: count occurrences per key, then keep counts `> 1`. -/
def get_dups (key : T → K) (l : List T) : List (K × Nat) :=
  (dupScan key l []).filter (fun p => decide (1 < p.2))

/-- The `Value` enum internal to Rust `dedup`. -/
inductive Value (T : Type) where
  | Placeholder
  | Single (v : T)
  | Multi (vs : List T)
deriving DecidableEq

/-- One iteration of the first `dedup` loop: the `match map.entry(...)`
block.  An occupied entry holding `Placeholder` is `unreachable!()` in the
Rust code, modelled as `none`. -/
def dedupStep (key : T → K) (m : List (K × Value T)) (item : T) :
    Option (List (K × Value T)) :=
  match mLookup (key item) m with
  | some Value.Placeholder => none
  | some (Value.Single v) =>
    some (mInsert (key item) (Value.Multi [v, item]) m).1
  | some (Value.Multi vs) =>
    some (mInsert (key item) (Value.Multi (vs ++ [item])) m).1
  | none => some (mInsert (key item) (Value.Single item) m).1

/-- The first `dedup` loop: `for item in list { ... }`. -/
def dedupBuild (key : T → K) : List T → List (K × Value T) →
    Option (List (K × Value T))
  | [], m => some m
  | x :: xs, m =>
    match dedupStep key m x with
    | none => none
    | some m2 => dedupBuild key xs m2

/-- The second `dedup` loop: `for (k, v) in map { ... }`, accumulating
`res.set` and `res.removed`.  The `Placeholder` arm is `unreachable!()` and
`values.pop().unwrap()` panics when the list is empty; both are `none`. -/
def dedupLoop : List (K × Value T) → List T × List (K × List T) →
    Option (List T × List (K × List T))
  | [], res => some res
  | (k, v) :: rest, res =>
    match v with
    | Value.Placeholder => none
    | Value.Single x => dedupLoop rest (res.1 ++ [x], res.2)
    | Value.Multi vs =>
      match vs.getLast? with
      | none => none
      | some last => dedupLoop rest (res.1 ++ [last], (mInsert k vs.dropLast res.2).1)

/-- Rust `Dedup` result struct (`ItemSet` is a transparent `Vec` newtype,
modelled directly as the list it wraps). -/
structure Dedup (T K : Type) where
  set : List T
  removed : List (K × List T)
deriving DecidableEq

/-- Rust `dedup`: build the grouping map, then collect retained and removed
elements in ascending key order. -/
def dedup (key : T → K) (l : List T) : Option (Dedup T K) :=
  match dedupBuild key l [] with
  | none => none
  | some m =>
    match dedupLoop m ([], []) with
    | none => none
    | some res => some { set := res.1, removed := res.2 }

/-- Rust `DiffIgnored` enum. -/
inductive DiffIgnored (L R : Type) where
  | left (l : L)
  | right (r : R)
deriving DecidableEq

/-- Rust `Diff` result struct. -/
structure Diff (L R : Type) where
  left : List L
  both : List (L × R)
  right : List R
  ignored : List (DiffIgnored L R)
deriving DecidableEq

/-- One side's scan in `diff`: `if let Some(replaced) = map.insert(key, item)
{ ignored.push(tag(replaced)) }`, threading the shared `ignored` vector. -/
def lwwScan (key : A → K) (tag : A → I) :
    List A → List (K × A) → List I → List (K × A) × List I
  | [], m, ig => (m, ig)
  | x :: xs, m, ig =>
    let p := mInsert (key x) x m
    lwwScan key tag xs p.1 (ig ++ (p.2.map tag).toList)

/-- The pairing loop of `diff`: walk the left map, removing matched keys
from the right map. -/
def diffWalk : List (K × L) → List (K × R) → List L → List (L × R) →
    List L × List (L × R) × List (K × R)
  | [], rm, dl, db => (dl, db, rm)
  | (k, v) :: rest, rm, dl, db =>
    let p := mRemove k rm
    match p.2 with
    | none => diffWalk rest p.1 (dl ++ [v]) db
    | some r => diffWalk rest p.1 dl (db ++ [(v, r)])

/-- Rust `diff`: scan the left then the right sequence with last-write-wins
inserts, then pair up the two maps. -/
def diff (keyL : L → K) (keyR : R → K) (ls : List L) (rs : List R) :
    Diff L R :=
  let p1 := lwwScan keyL DiffIgnored.left ls [] []
  let p2 := lwwScan keyR DiffIgnored.right rs [] p1.2
  let w := diffWalk p1.1 p2.1 [] []
  { left := w.1
    both := w.2.1
    right := if w.2.2.isEmpty then [] else w.2.2.map Prod.snd
    ignored := p2.2 }

/-- Rust `WithKey` wrapper struct. -/
structure WithKey (T K : Type) where
  key : K
  item : T
deriving DecidableEq

/-- Rust `with_key`: pair each element with its precomputed key. -/
def with_key (l : List T) (f : T → K) : List (WithKey T K) :=
  l.map (fun item => { key := f item, item := item })

/-- The `HasItemKey` impl for `WithKey`: return the stored key. -/
def WithKey.get_item_key (w : WithKey T K) : K := w.key

/-- The elements of `l` whose extracted key is `k`, in input order. -/
def keyed (key : T → K) (k : K) (l : List T) : List T :=
  l.filter (fun x => decide (key x = k))

/-- Number of occurrences of key `k` in `l`. -/
def countKey (key : T → K) (k : K) (l : List T) : Nat :=
  (keyed key k l).length

/-- The element evicted when `x` arrives after `seen` under last-write-wins:
the most recent element of `seen` sharing `x`'s key, if any. -/
def evictAt (key : T → K) (seen : List T) (x : T) : Option T :=
  (keyed key (key x) seen).getLast?

/-- The eviction log of a last-write-wins scan, in eviction order: element
`i` contributes the latest earlier element with its key, when one exists. -/
def specEvictions (key : T → K) : List T → List T → List T
  | _, [] => []
  | seen, x :: xs => (evictAt key seen x).toList ++ specEvictions key (seen ++ [x]) xs

/-- The left-tagged entries of an ignored log. -/
def leftIgnored : List (DiffIgnored L R) → List L :=
  List.filterMap (fun i =>
    match i with
    | DiffIgnored.left x => some x
    | DiffIgnored.right _ => none)

/-- The right-tagged entries of an ignored log. -/
def rightIgnored : List (DiffIgnored L R) → List R :=
  List.filterMap (fun i =>
    match i with
    | DiffIgnored.left _ => none
    | DiffIgnored.right x => some x)

/-- Shape of the grouping slot for a key whose occurrences, in input order,
are the given list: absent, a single element, or an accumulated list. -/
def valueOf : List T → Option (Value T)
  | [] => none
  | [x] => some (Value.Single x)
  | x :: y :: rest => some (Value.Multi (x :: y :: rest))

/-- The element the second `dedup` loop retains from a slot. -/
def repOf : Value T → List T
  | Value.Placeholder => []
  | Value.Single x => [x]
  | Value.Multi vs => vs.getLast?.toList

/-- All elements stored in a slot. -/
def elemsOf : Value T → List T
  | Value.Placeholder => []
  | Value.Single x => [x]
  | Value.Multi vs => vs

/-- The retained sequence the second `dedup` loop produces from a map. -/
def setOf (m : List (K × Value T)) : List T :=
  (m.map (fun q => repOf q.2)).flatten

/-- The removed mapping the second `dedup` loop produces from a map. -/
def remOf (m : List (K × Value T)) : List (K × List T) :=
  m.filterMap (fun q =>
    match q.2 with
    | Value.Multi vs => some (q.1, vs.dropLast)
    | _ => none)

/-- All elements stored in a map. -/
def allElems (m : List (K × Value T)) : List T :=
  (m.map (fun q => elemsOf q.2)).flatten

/-- The grouping map a last-write-wins scan builds; the `ignored` log and
its tagging do not influence it. -/
def scanMap (key : A → K) (l : List A) : List (K × A) :=
  (lwwScan key (fun a => a) l [] []).1

/-! ## Theorems -/

theorem mSorted_nil : mSorted ([] : List (K × V)) := by
  simp [mSorted]

theorem mSorted_cons {k : K} {v : V} {m : List (K × V)} :
    mSorted ((k, v) :: m) ↔ (∀ q ∈ m, k < q.1) ∧ mSorted m := by
  simp only [mSorted, List.map_cons, List.sorted_cons]
  constructor
  · rintro ⟨h1, h2⟩
    exact ⟨fun q hq => h1 _ (List.mem_map_of_mem Prod.fst hq), h2⟩
  · rintro ⟨h1, h2⟩
    refine ⟨?_, h2⟩
    rintro b hb
    rcases List.mem_map.1 hb with ⟨q, hq, rfl⟩
    exact h1 q hq

theorem mLookup_nil {k : K} : mLookup k ([] : List (K × V)) = none := rfl

theorem mLookup_cons {k k1 : K} {v1 : V} {m : List (K × V)} :
    mLookup k ((k1, v1) :: m) = if k = k1 then some v1 else mLookup k m := rfl

/-- Lookup is `none` exactly when no entry has the key. -/
theorem mLookup_eq_none_iff {k : K} {m : List (K × V)} :
    mLookup k m = none ↔ ∀ q ∈ m, q.1 ≠ k := by
  induction m with
  | nil => simp [mLookup]
  | cons q rest ih =>
    obtain ⟨k1, v1⟩ := q
    by_cases h : k = k1
    · subst h
      simp [mLookup_cons]
    · simp only [mLookup_cons, if_neg h, ih, List.mem_cons]
      constructor
      · intro hall q hq
        rcases hq with rfl | hq
        · exact fun hc => h hc.symm
        · exact hall q hq
      · intro hall q hq
        exact hall q (Or.inr hq)

/-- On a map whose keys all differ from `k`, inserting `k` evicts nothing. -/
theorem mLookup_eq_none_of_lt {k : K} {m : List (K × V)}
    (h : ∀ q ∈ m, k < q.1) : mLookup k m = none := by
  rw [mLookup_eq_none_iff]
  intro q hq
  exact ne_of_gt (h q hq)

/-- The value returned by `mInsert` is the previous binding of the key,
provided the map is sorted. -/
theorem mInsert_snd {k : K} {v : V} {m : List (K × V)} (hm : mSorted m) :
    (mInsert k v m).2 = mLookup k m := by
  induction m with
  | nil => rfl
  | cons q rest ih =>
    obtain ⟨k1, v1⟩ := q
    rcases mSorted_cons.1 hm with ⟨hlt, hrest⟩
    by_cases h1 : k < k1
    · have : mLookup k ((k1, v1) :: rest) = none := by
        apply mLookup_eq_none_of_lt
        intro q hq
        rcases List.mem_cons.1 hq with rfl | hq
        · exact h1
        · exact lt_trans h1 (hlt q hq)
      simp [mInsert, if_pos h1, this]
    · by_cases h2 : k = k1
      · subst h2
        simp [mInsert, if_neg h1, mLookup_cons]
      · simp [mInsert, if_neg h1, if_neg h2, mLookup_cons, ih hrest]

/-- Every entry of the map after an insertion is the new entry or an old one. -/
theorem mInsert_mem {k : K} {v : V} {m : List (K × V)} {q : K × V}
    (hq : q ∈ (mInsert k v m).1) : q = (k, v) ∨ q ∈ m := by
  induction m with
  | nil =>
    simp only [mInsert, List.mem_singleton] at hq
    exact Or.inl hq
  | cons p rest ih =>
    obtain ⟨k1, v1⟩ := p
    by_cases h1 : k < k1
    · simp only [mInsert, if_pos h1, List.mem_cons] at hq
      rcases hq with rfl | hq | hq
      · exact Or.inl rfl
      · exact Or.inr (List.mem_cons.2 (Or.inl hq))
      · exact Or.inr (List.mem_cons.2 (Or.inr hq))
    · by_cases h2 : k = k1
      · subst h2
        simp [mInsert, if_neg h1, List.mem_cons] at hq
        rcases hq with rfl | hq
        · exact Or.inl rfl
        · exact Or.inr (List.mem_cons.2 (Or.inr hq))
      · simp only [mInsert, if_neg h1, if_neg h2, List.mem_cons] at hq
        rcases hq with rfl | hq
        · exact Or.inr (List.mem_cons.2 (Or.inl rfl))
        · rcases ih hq with h | h
          · exact Or.inl h
          · exact Or.inr (List.mem_cons.2 (Or.inr h))

/-- Inserting preserves sortedness. -/
theorem mInsert_sorted {k : K} {v : V} {m : List (K × V)} (hm : mSorted m) :
    mSorted (mInsert k v m).1 := by
  induction m with
  | nil => simp [mInsert, mSorted]
  | cons q rest ih =>
    obtain ⟨k1, v1⟩ := q
    rcases mSorted_cons.1 hm with ⟨hlt, hrest⟩
    by_cases h1 : k < k1
    · simp only [mInsert, if_pos h1]
      rw [mSorted_cons]
      refine ⟨?_, hm⟩
      intro q hq
      rcases List.mem_cons.1 hq with rfl | hq
      · exact h1
      · exact lt_trans h1 (hlt q hq)
    · by_cases h2 : k = k1
      · subst h2
        simp only [mInsert, if_neg h1, if_pos rfl]
        exact mSorted_cons.2 ⟨hlt, hrest⟩
      · simp only [mInsert, if_neg h1, if_neg h2]
        rw [mSorted_cons]
        have hk1k : k1 < k := lt_of_le_of_ne (not_lt.1 h1) (fun h => h2 h.symm)
        refine ⟨?_, ih hrest⟩
        intro q hq
        rcases mInsert_mem hq with rfl | hq
        · exact hk1k
        · exact hlt q hq

/-- Looking up the key just inserted returns the new value. -/
theorem mLookup_mInsert_self {k : K} {v : V} {m : List (K × V)} :
    mLookup k (mInsert k v m).1 = some v := by
  induction m with
  | nil => simp [mInsert, mLookup]
  | cons q rest ih =>
    obtain ⟨k1, v1⟩ := q
    by_cases h1 : k < k1
    · simp [mInsert, if_pos h1, mLookup_cons]
    · by_cases h2 : k = k1
      · subst h2
        simp [mInsert, if_neg h1, mLookup_cons]
      · simp [mInsert, if_neg h1, if_neg h2, mLookup_cons, ih]

/-- Looking up a different key is unaffected by an insertion. -/
theorem mLookup_mInsert_ne {k k' : K} {v : V} {m : List (K × V)} (h : k' ≠ k) :
    mLookup k' (mInsert k v m).1 = mLookup k' m := by
  induction m with
  | nil => simp [mInsert, mLookup, if_neg h]
  | cons q rest ih =>
    obtain ⟨k1, v1⟩ := q
    by_cases h1 : k < k1
    · simp [mInsert, if_pos h1, mLookup_cons, if_neg h]
    · by_cases h2 : k = k1
      · subst h2
        simp [mInsert, if_neg h1, mLookup_cons, if_neg h]
      · simp [mInsert, if_neg h1, if_neg h2, mLookup_cons, ih]

/-- Removing an absent key leaves the map unchanged. -/
theorem mRemove_of_none {k : K} {m : List (K × V)} (h : mLookup k m = none) :
    mRemove k m = (m, none) := by
  induction m with
  | nil => rfl
  | cons q rest ih =>
    obtain ⟨k1, v1⟩ := q
    rw [mLookup_cons] at h
    by_cases h2 : k = k1
    · simp [if_pos h2] at h
    · rw [if_neg h2] at h
      simp [mRemove, if_neg h2, ih h]

/-- The value returned by `mRemove` is the binding of the key. -/
theorem mRemove_snd {k : K} {m : List (K × V)} :
    (mRemove k m).2 = mLookup k m := by
  induction m with
  | nil => rfl
  | cons q rest ih =>
    obtain ⟨k1, v1⟩ := q
    by_cases h2 : k = k1
    · simp [mRemove, if_pos h2, mLookup_cons]
    · simp [mRemove, if_neg h2, mLookup_cons, ih]

/-- Removal does not touch bindings of other keys. -/
theorem mLookup_mRemove_ne {k k' : K} {m : List (K × V)} (h : k' ≠ k) :
    mLookup k' (mRemove k m).1 = mLookup k' m := by
  induction m with
  | nil => rfl
  | cons q rest ih =>
    obtain ⟨k1, v1⟩ := q
    by_cases h2 : k = k1
    · subst h2
      simp [mRemove, mLookup_cons, if_neg h]
    · simp [mRemove, if_neg h2, mLookup_cons, ih]

/-- The map after a removal is a sublist of the original map. -/
theorem mRemove_sublist {k : K} (m : List (K × V)) :
    (mRemove k m).1.Sublist m := by
  induction m with
  | nil => simp [mRemove]
  | cons q rest ih =>
    obtain ⟨k1, v1⟩ := q
    by_cases h2 : k = k1
    · simp only [mRemove, if_pos h2]
      exact List.sublist_cons_self _ _
    · simp only [mRemove, if_neg h2]
      exact List.Sublist.cons₂ _ ih

/-- Sortedness is inherited by sublists of the entry list. -/
theorem mSorted_of_sublist {m1 m2 : List (K × V)} (hs : m1.Sublist m2)
    (hm : mSorted m2) : mSorted m1 :=
  List.Pairwise.sublist (List.Sublist.map Prod.fst hs) hm

/-- Removing a bound key splits the entry list, up to permutation, into the
removed value and the rest. -/
theorem mRemove_values_perm {k : K} {v : V} {m : List (K × V)}
    (h : (mRemove k m).2 = some v) :
    (m.map Prod.snd).Perm (v :: (mRemove k m).1.map Prod.snd) := by
  induction m with
  | nil => simp [mRemove] at h
  | cons q rest ih =>
    obtain ⟨k1, v1⟩ := q
    by_cases h2 : k = k1
    · simp only [mRemove, if_pos h2] at h ⊢
      obtain rfl : v1 = v := by simpa using h
      simp
    · simp only [mRemove, if_neg h2] at h ⊢
      refine List.Perm.trans (List.Perm.cons v1 (ih h)) ?_
      exact List.Perm.swap v v1 _

/-- Inserting an entry adds the new binding and gives back the evicted one:
together they are a permutation of the new entry plus the old entries. -/
theorem mInsert_entries_perm (k : K) (v : V) (m : List (K × V)) :
    ((mInsert k v m).1 ++ ((mInsert k v m).2.map (fun w => (k, w))).toList).Perm
      ((k, v) :: m) := by
  induction m with
  | nil => simp [mInsert]
  | cons q rest ih =>
    obtain ⟨k1, v1⟩ := q
    by_cases h1 : k < k1
    · simp [mInsert, if_pos h1]
    · by_cases h2 : k = k1
      · subst h2
        simp only [mInsert, if_neg h1, if_pos rfl, Option.map_some, Option.toList_some]
        refine List.Perm.cons (k, v) ?_
        exact List.perm_append_singleton (k, v1) rest
      · simp only [mInsert, if_neg h1, if_neg h2, List.cons_append]
        refine List.Perm.trans (List.Perm.cons (k1, v1) ih) ?_
        exact List.Perm.swap (k, v) (k1, v1) rest

/-- Keys of a sorted map are pairwise distinct. -/
theorem mSorted_keys_nodup {m : List (K × V)} (hm : mSorted m) :
    (m.map Prod.fst).Nodup :=
  List.Pairwise.imp ne_of_lt hm

/-- On a map with distinct keys, looking up after a filter keeps a binding
exactly when the filter keeps its entry. -/
theorem mLookup_filter {k : K} {m : List (K × V)} {f : K × V → Bool}
    (hnd : (m.map Prod.fst).Nodup) :
    mLookup k (m.filter f) =
      (mLookup k m).bind (fun v => if f (k, v) then some v else none) := by
  induction m with
  | nil => simp [mLookup]
  | cons q rest ih =>
    obtain ⟨k1, v1⟩ := q
    simp only [List.map_cons, List.nodup_cons] at hnd
    obtain ⟨hk1, hrest⟩ := hnd
    by_cases h2 : k = k1
    · subst h2
      have hnone : mLookup k (rest.filter f) = none := by
        rw [mLookup_eq_none_iff]
        intro q hq
        intro hc
        exact hk1 (hc ▸ List.mem_map_of_mem Prod.fst (List.mem_of_mem_filter hq))
      by_cases hf : f (k, v1)
      · simp [List.filter_cons, hf, mLookup_cons]
      · simp [List.filter_cons, hf, mLookup_cons, hnone]
    · by_cases hf : f (k1, v1)
      · simp [List.filter_cons, hf, mLookup_cons, if_neg h2, ih hrest]
      · simp [List.filter_cons, hf, mLookup_cons, if_neg h2, ih hrest]

example : get_dups (fun n => n) [1, 1, 1, 1, 2, 2, 2, 3, 3, 4, 5, 6] =
    [(1, 4), (2, 3), (3, 2)] := by decide

example : dedup (fun n => n) [1, 1, 1, 1, 2, 2, 2, 3, 3, 4, 5, 6] =
    some ⟨[1, 2, 3, 4, 5, 6], [(1, [1, 1, 1]), (2, [2, 2]), (3, [3])]⟩ := by
  decide

example :
    diff (Prod.fst : Nat × Nat → Nat) Prod.fst
      [(0, 0), (1, 1), (1, 2), (1, 3), (2, 4), (2, 5), (3, 6)]
      [(1, 10), (1, 11), (1, 12), (2, 13), (2, 14), (3, 15), (4, 16)] =
    { left := [(0, 0)]
      both := [((1, 3), (1, 12)), ((2, 5), (2, 14)), ((3, 6), (3, 15))]
      right := [(4, 16)]
      ignored := [DiffIgnored.left (1, 1), DiffIgnored.left (1, 2),
        DiffIgnored.left (2, 4), DiffIgnored.right (1, 10),
        DiffIgnored.right (1, 11), DiffIgnored.right (2, 13)] } := by decide

theorem keyed_nil (key : T → K) (k : K) : keyed key k [] = [] := rfl

theorem keyed_cons (key : T → K) (k : K) (x : T) (xs : List T) :
    keyed key k (x :: xs) =
      if key x = k then x :: keyed key k xs else keyed key k xs := by
  by_cases h : key x = k <;> simp [keyed, List.filter_cons, h]

theorem countKey_cons (key : T → K) (k : K) (x : T) (xs : List T) :
    countKey key k (x :: xs) =
      if key x = k then countKey key k xs + 1 else countKey key k xs := by
  by_cases h : key x = k <;> simp [countKey, keyed_cons, h]

theorem dupScan_sorted (key : T → K) (l : List T) {m : List (K × Nat)}
    (hm : mSorted m) : mSorted (dupScan key l m) := by
  induction l generalizing m with
  | nil => exact hm
  | cons x xs ih => exact ih (mInsert_sorted hm)

theorem dupScan_lookup_getD (key : T → K) (l : List T) {m : List (K × Nat)}
    (hm : mSorted m) (k : K) :
    (mLookup k (dupScan key l m)).getD 0 =
      (mLookup k m).getD 0 + countKey key k l := by
  induction l generalizing m with
  | nil => simp [dupScan, countKey, keyed]
  | cons x xs ih =>
    rw [dupScan, ih (mInsert_sorted hm), countKey_cons]
    by_cases h : key x = k
    · subst h
      rw [mLookup_mInsert_self, if_pos rfl]
      simp [Nat.add_comm, Nat.add_assoc, Nat.add_left_comm]
    · rw [mLookup_mInsert_ne (fun hc => h hc.symm), if_neg h]

theorem dupScan_lookup_none (key : T → K) (l : List T) {m : List (K × Nat)}
    (hm : mSorted m) (k : K) :
    mLookup k (dupScan key l m) = none ↔
      mLookup k m = none ∧ countKey key k l = 0 := by
  induction l generalizing m with
  | nil => simp [dupScan, countKey, keyed]
  | cons x xs ih =>
    rw [dupScan, ih (mInsert_sorted hm), countKey_cons]
    by_cases h : key x = k
    · subst h
      rw [mLookup_mInsert_self, if_pos rfl]
      simp
    · rw [mLookup_mInsert_ne (fun hc => h hc.symm), if_neg h]

theorem get_dups_lookup (key : T → K) (l : List T) (k : K) :
    mLookup k (get_dups key l) =
      if 2 ≤ countKey key k l then some (countKey key k l) else none := by
  have hs : mSorted (dupScan key l ([] : List (K × Nat))) :=
    dupScan_sorted key l mSorted_nil
  have hbind := mLookup_filter (k := k) (m := dupScan key l [])
    (f := fun p => decide (1 < p.2)) (mSorted_keys_nodup hs)
  rw [get_dups, hbind]
  rcases hv : mLookup k (dupScan key l ([] : List (K × Nat))) with _ | v
  · have h0 : countKey key k l = 0 :=
      ((dupScan_lookup_none key l mSorted_nil k).1 hv).2
    simp [h0]
  · have hv' : v = countKey key k l := by
      have := dupScan_lookup_getD key l mSorted_nil k
      rwa [hv, mLookup_nil, Option.getD_some, Option.getD_none, Nat.zero_add] at this
    subst hv'
    by_cases h2 : 2 ≤ countKey key k l
    · have : 1 < countKey key k l := h2
      simp [Option.bind_some, this, h2]
    · have : ¬ 1 < countKey key k l := h2
      simp [Option.bind_some, this, h2]

/-! ## The deduplicator: the grouping map -/

theorem keyed_append (key : T → K) (k : K) (l1 l2 : List T) :
    keyed key k (l1 ++ l2) = keyed key k l1 ++ keyed key k l2 := by
  simp [keyed, List.filter_append]

theorem valueOf_ne_placeholder (l : List T) :
    valueOf l ≠ some Value.Placeholder := by
  match l with
  | [] => simp [valueOf]
  | [x] => simp [valueOf]
  | x :: y :: rest => simp [valueOf]

theorem valueOf_eq_single {l : List T} {x : T}
    (h : valueOf l = some (Value.Single x)) : l = [x] := by
  match l with
  | [] => exact absurd h (by simp [valueOf])
  | [y] =>
    rw [valueOf] at h
    obtain rfl : y = x := by simpa using h
    rfl
  | y :: z :: rest => exact absurd h (by simp [valueOf])

theorem valueOf_eq_multi {l vs : List T}
    (h : valueOf l = some (Value.Multi vs)) : l = vs ∧ 2 ≤ vs.length := by
  match l with
  | [] => exact absurd h (by simp [valueOf])
  | [y] => exact absurd h (by simp [valueOf])
  | y :: z :: rest =>
    rw [valueOf] at h
    obtain rfl : y :: z :: rest = vs := by simpa using h
    refine ⟨rfl, ?_⟩
    simp only [List.length_cons]
    omega

theorem valueOf_of_two_le {l : List T} (h : 2 ≤ l.length) :
    valueOf l = some (Value.Multi l) := by
  match l with
  | [] => simp at h
  | [x] => simp at h
  | x :: y :: rest => rfl

/-- On a map with distinct keys, every entry is found by lookup. -/
theorem mLookup_of_mem {m : List (K × V)} {k : K} {v : V}
    (hnd : (m.map Prod.fst).Nodup) (hq : (k, v) ∈ m) : mLookup k m = some v := by
  induction m with
  | nil => simp at hq
  | cons p rest ih =>
    obtain ⟨k1, v1⟩ := p
    simp only [List.map_cons, List.nodup_cons] at hnd
    rcases List.mem_cons.1 hq with heq | hq2
    · cases heq
      simp [mLookup_cons]
    · have hk : k ≠ k1 := by
        rintro rfl
        exact hnd.1 (List.mem_map.2 ⟨(k, v), hq2, rfl⟩)
      simp [mLookup_cons, if_neg hk, ih hnd.2 hq2]

/-- Inserting a key larger than every present key appends at the end. -/
theorem mInsert_append {k : K} {v : V} {m : List (K × V)}
    (h : ∀ q ∈ m, q.1 < k) : mInsert k v m = (m ++ [(k, v)], none) := by
  induction m with
  | nil => rfl
  | cons p rest ih =>
    obtain ⟨k1, v1⟩ := p
    have hk1 : k1 < k := h (k1, v1) (List.mem_cons_self _ _)
    have h1 : ¬ k < k1 := not_lt.2 (le_of_lt hk1)
    have h2 : k ≠ k1 := ne_of_gt hk1
    simp [mInsert, if_neg h1, if_neg h2,
      ih (fun q hq => h q (List.mem_cons_of_mem _ hq))]

/-- One step of the first `dedup` loop succeeds and keeps the slot of every
key equal to the occurrence list of the sequence scanned so far. -/
theorem dedupStep_inv (key : T → K) {m : List (K × Value T)} (seen : List T)
    (x : T) (hm : mSorted m)
    (hinv : ∀ k, mLookup k m = valueOf (keyed key k seen)) :
    ∃ m2, dedupStep key m x = some m2 ∧ mSorted m2 ∧
      ∀ k, mLookup k m2 = valueOf (keyed key k (seen ++ [x])) := by
  rcases hkv : keyed key (key x) seen with _ | ⟨v, _ | ⟨v2, vrest⟩⟩
  · have hx : mLookup (key x) m = none := by rw [hinv (key x), hkv]; rfl
    refine ⟨(mInsert (key x) (Value.Single x) m).1, ?_, mInsert_sorted hm, ?_⟩
    · rw [dedupStep, hx]
    · intro k
      by_cases hk : k = key x
      · subst hk
        rw [mLookup_mInsert_self, keyed_append, hkv, keyed_cons, if_pos rfl,
          keyed_nil]
        rfl
      · rw [mLookup_mInsert_ne hk, keyed_append, keyed_cons,
          if_neg (fun hc => hk hc.symm), keyed_nil, List.append_nil, hinv k]
  · have hx : mLookup (key x) m = some (Value.Single v) := by
      rw [hinv (key x), hkv]; rfl
    refine ⟨(mInsert (key x) (Value.Multi [v, x]) m).1, ?_, mInsert_sorted hm, ?_⟩
    · rw [dedupStep, hx]
    · intro k
      by_cases hk : k = key x
      · subst hk
        rw [mLookup_mInsert_self, keyed_append, hkv, keyed_cons, if_pos rfl,
          keyed_nil]
        rfl
      · rw [mLookup_mInsert_ne hk, keyed_append, keyed_cons,
          if_neg (fun hc => hk hc.symm), keyed_nil, List.append_nil, hinv k]
  · have hx : mLookup (key x) m = some (Value.Multi (v :: v2 :: vrest)) := by
      rw [hinv (key x), hkv]; rfl
    refine ⟨(mInsert (key x) (Value.Multi ((v :: v2 :: vrest) ++ [x])) m).1, ?_,
      mInsert_sorted hm, ?_⟩
    · rw [dedupStep, hx]
    · intro k
      by_cases hk : k = key x
      · subst hk
        rw [mLookup_mInsert_self, keyed_append, hkv, keyed_cons, if_pos rfl,
          keyed_nil]
        rfl
      · rw [mLookup_mInsert_ne hk, keyed_append, keyed_cons,
          if_neg (fun hc => hk hc.symm), keyed_nil, List.append_nil, hinv k]

/-- The first `dedup` loop never panics, keeps the map sorted, and leaves
each key's slot holding exactly its occurrence list. -/
theorem dedupBuild_some (key : T → K) (l : List T) :
    ∀ (seen : List T) (m : List (K × Value T)), mSorted m →
      (∀ k, mLookup k m = valueOf (keyed key k seen)) →
      ∃ m2, dedupBuild key l m = some m2 ∧ mSorted m2 ∧
        ∀ k, mLookup k m2 = valueOf (keyed key k (seen ++ l)) := by
  induction l with
  | nil =>
    intro seen m hm hinv
    exact ⟨m, rfl, hm, by simpa using hinv⟩
  | cons x xs ih =>
    intro seen m hm hinv
    obtain ⟨m1, hstep, hm1, hinv1⟩ := dedupStep_inv key seen x hm hinv
    obtain ⟨m2, hbuild, hm2, hinv2⟩ := ih (seen ++ [x]) m1 hm1 hinv1
    refine ⟨m2, ?_, hm2, ?_⟩
    · rw [dedupBuild, hstep]
      exact hbuild
    · intro k
      rw [hinv2 k, List.append_assoc, List.singleton_append]

theorem setOf_cons (k : K) (v : Value T) (m : List (K × Value T)) :
    setOf ((k, v) :: m) = repOf v ++ setOf m := by
  simp [setOf]

theorem remOf_cons_single (k : K) (x : T) (m : List (K × Value T)) :
    remOf ((k, Value.Single x) :: m) = remOf m := by
  simp [remOf, List.filterMap_cons]

theorem remOf_cons_multi (k : K) (vs : List T) (m : List (K × Value T)) :
    remOf ((k, Value.Multi vs) :: m) = (k, vs.dropLast) :: remOf m := by
  simp [remOf, List.filterMap_cons]

theorem allElems_cons (k : K) (v : Value T) (m : List (K × Value T)) :
    allElems ((k, v) :: m) = elemsOf v ++ allElems m := by
  simp [allElems]

/-- The second `dedup` loop succeeds on a sorted panic-free map and appends
`setOf`/`remOf` to its accumulators. -/
theorem dedupLoop_spec (m : List (K × Value T)) :
    ∀ (s : List T) (r : List (K × List T)), mSorted m →
      (∀ q ∈ m, q.2 ≠ Value.Placeholder) →
      (∀ q ∈ m, ∀ vs, q.2 = Value.Multi vs → vs ≠ []) →
      (∀ q ∈ r, ∀ p ∈ m, q.1 < p.1) →
      dedupLoop m (s, r) = some (s ++ setOf m, r ++ remOf m) := by
  induction m with
  | nil =>
    intro s r _ _ _ _
    simp [dedupLoop, setOf, remOf]
  | cons q rest ih =>
    obtain ⟨k, v⟩ := q
    intro s r hm hpl hml hacc
    rcases mSorted_cons.1 hm with ⟨hklt, hrest⟩
    have hpl' : ∀ q ∈ rest, q.2 ≠ Value.Placeholder :=
      fun q hq => hpl q (List.mem_cons_of_mem _ hq)
    have hml' : ∀ q ∈ rest, ∀ vs, q.2 = Value.Multi vs → vs ≠ [] :=
      fun q hq => hml q (List.mem_cons_of_mem _ hq)
    cases v with
    | Placeholder =>
      exact absurd rfl
        (hpl (k, Value.Placeholder) (List.mem_cons_self _ _))
    | Single x =>
      rw [dedupLoop,
        ih (s ++ [x]) r hrest hpl' hml'
          (fun q hq p hp => hacc q hq p (List.mem_cons_of_mem _ hp)),
        setOf_cons, remOf_cons_single]
      simp [repOf, List.append_assoc]
    | Multi vs =>
      have hne : vs ≠ [] :=
        hml (k, Value.Multi vs) (List.mem_cons_self _ _) vs rfl
      have hlast : vs.getLast? = some (vs.getLast hne) :=
        List.getLast?_eq_getLast vs hne
      have hins : mInsert k vs.dropLast r = (r ++ [(k, vs.dropLast)], none) :=
        mInsert_append
          (fun q hq => hacc q hq (k, Value.Multi vs) (List.mem_cons_self _ _))
      have hacc' :
          ∀ q ∈ r ++ [(k, vs.dropLast)], ∀ p ∈ rest, q.1 < p.1 := by
        intro q hq p hp
        rcases List.mem_append.1 hq with hq | hq
        · exact hacc q hq p (List.mem_cons_of_mem _ hp)
        · obtain rfl : q = (k, vs.dropLast) := by simpa using hq
          exact hklt p hp
      rw [dedupLoop, hlast, hins]
      show dedupLoop rest (s ++ [vs.getLast hne], r ++ [(k, vs.dropLast)]) = _
      rw [ih (s ++ [vs.getLast hne]) (r ++ [(k, vs.dropLast)]) hrest hpl'
          hml' hacc',
        setOf_cons, remOf_cons_multi]
      simp [repOf, hlast, List.append_assoc]

/-- Master characterisation of `dedup`: it always succeeds, and its output
is `setOf`/`remOf` of the grouping map, whose slots hold exactly the
per-key occurrence lists. -/
theorem dedup_eq_setOf (key : T → K) (l : List T) :
    ∃ m, dedupBuild key l [] = some m ∧ mSorted m ∧
      (∀ k, mLookup k m = valueOf (keyed key k l)) ∧
      dedup key l = some ⟨setOf m, remOf m⟩ := by
  obtain ⟨m, hb, hm, hinv⟩ :=
    dedupBuild_some key l [] [] mSorted_nil (fun k => rfl)
  have hinv' : ∀ k, mLookup k m = valueOf (keyed key k l) := by
    simpa using hinv
  have hnd := mSorted_keys_nodup hm
  have hmem : ∀ q ∈ m, valueOf (keyed key q.1 l) = some q.2 := by
    intro q hq
    obtain ⟨k, v⟩ := q
    rw [← hinv' k]
    exact mLookup_of_mem hnd hq
  have hpl : ∀ q ∈ m, q.2 ≠ Value.Placeholder := by
    intro q hq hc
    have h := hmem q hq
    rw [hc] at h
    exact valueOf_ne_placeholder _ h
  have hml : ∀ q ∈ m, ∀ vs, q.2 = Value.Multi vs → vs ≠ [] := by
    intro q hq vs hvs
    have h := hmem q hq
    rw [hvs] at h
    obtain ⟨-, hlen⟩ := valueOf_eq_multi h
    intro hc
    subst hc
    simp at hlen
  have hloop := dedupLoop_spec m [] [] hm hpl hml (by intro q hq; simp at hq)
  refine ⟨m, hb, hm, hinv', ?_⟩
  simp only [dedup, hb, hloop, List.nil_append]

/-! ## The differ: scan lemmas -/

theorem option_toList_map {A2 B2 : Type} (o : Option A2) (f : A2 → B2) :
    (o.map f).toList = o.toList.map f := by
  cases o <;> rfl

theorem mem_of_getLast?_eq {l : List A} {a : A} (h : l.getLast? = some a) :
    a ∈ l := by
  have hne : l ≠ [] := by rintro rfl; simp at h
  have heq := List.getLast?_eq_getLast l hne
  rw [heq] at h
  obtain rfl : l.getLast hne = a := by simpa using h
  exact List.getLast_mem hne

theorem getLast?_cons_or (a : A) (l : List A) :
    (a :: l).getLast? = l.getLast?.or (some a) := by
  cases l with
  | nil => rfl
  | cons b t =>
    rw [List.getLast?_cons_cons]
    rcases h : (b :: t).getLast? with _ | c
    · simp [List.getLast?_eq_none_iff] at h
    · rfl

/-- The map built by the scan does not depend on the eviction tagging nor on
the already accumulated log. -/
theorem lwwScan_map_congr {key : A → K} {I2 : Type} {tag1 : A → I}
    {tag2 : A → I2} (l : List A) :
    ∀ (m : List (K × A)) (ig1 : List I) (ig2 : List I2),
      (lwwScan key tag1 l m ig1).1 = (lwwScan key tag2 l m ig2).1 := by
  induction l with
  | nil => intro m ig1 ig2; rfl
  | cons x xs ih => intro m ig1 ig2; exact ih _ _ _

theorem lwwScan_sorted {key : A → K} {tag : A → I} (l : List A) :
    ∀ {m : List (K × A)} (ig : List I), mSorted m →
      mSorted (lwwScan key tag l m ig).1 := by
  induction l with
  | nil => intro m ig hm; exact hm
  | cons x xs ih => intro m ig hm; exact ih _ (mInsert_sorted hm)

theorem lwwScan_entry_key {key : A → K} {tag : A → I} (l : List A) :
    ∀ {m : List (K × A)} (ig : List I), (∀ q ∈ m, key q.2 = q.1) →
      ∀ q ∈ (lwwScan key tag l m ig).1, key q.2 = q.1 := by
  induction l with
  | nil => intro m ig hm; exact hm
  | cons x xs ih =>
    intro m ig hm
    refine ih _ ?_
    intro q hq
    rcases mInsert_mem hq with rfl | hq
    · rfl
    · exact hm q hq

/-- One last-write-wins insertion keeps the slot invariant and evicts
exactly the latest earlier element with the same key. -/
theorem lwwStep_inv {key : A → K} (seen : List A) (x : A) {m : List (K × A)}
    (hm : mSorted m)
    (hinv : ∀ k, mLookup k m = (keyed key k seen).getLast?) :
    (∀ k, mLookup k (mInsert (key x) x m).1 =
        (keyed key k (seen ++ [x])).getLast?) ∧
      (mInsert (key x) x m).2 = evictAt key seen x := by
  constructor
  · intro k
    by_cases h : k = key x
    · subst h
      rw [mLookup_mInsert_self, keyed_append, keyed_cons, if_pos rfl,
        keyed_nil, List.getLast?_concat]
    · rw [mLookup_mInsert_ne h, keyed_append, keyed_cons,
        if_neg (fun hc => h hc.symm), keyed_nil, List.append_nil, hinv k]
  · rw [mInsert_snd hm, hinv (key x)]
    rfl

/-- The scan's evictions, in eviction order, are `specEvictions`. -/
theorem lwwScan_ig {key : A → K} {tag : A → I} (l : List A) :
    ∀ (seen : List A) {m : List (K × A)} (ig : List I), mSorted m →
      (∀ k, mLookup k m = (keyed key k seen).getLast?) →
      (lwwScan key tag l m ig).2 = ig ++ (specEvictions key seen l).map tag := by
  induction l with
  | nil => intro seen m ig hm hinv; simp [lwwScan, specEvictions]
  | cons x xs ih =>
    intro seen m ig hm hinv
    obtain ⟨hinv2, hev⟩ := lwwStep_inv seen x hm hinv
    simp only [lwwScan]
    rw [ih (seen ++ [x]) _ (mInsert_sorted hm) hinv2, hev, specEvictions]
    rw [List.map_append, ← List.append_assoc, option_toList_map]

/-- The scan's final slots hold the last occurrence of each key. -/
theorem lwwScan_lookup {key : A → K} {tag : A → I} (l : List A) :
    ∀ {m : List (K × A)} (ig : List I), mSorted m → ∀ k,
      mLookup k (lwwScan key tag l m ig).1 =
        ((keyed key k l).getLast?).or (mLookup k m) := by
  induction l with
  | nil => intro m ig hm k; simp [lwwScan, keyed]
  | cons x xs ih =>
    intro m ig hm k
    simp only [lwwScan]
    rw [ih _ (mInsert_sorted hm) k, keyed_cons]
    by_cases h : key x = k
    · subst h
      rw [if_pos rfl, mLookup_mInsert_self, getLast?_cons_or, Option.or_assoc]
      rcases (keyed key (key x) xs).getLast? with _ | c <;> rfl
    · rw [if_neg h, mLookup_mInsert_ne (fun hc => h hc.symm)]

theorem mInsert_values_perm (k : K) (v : V) (m : List (K × V)) :
    ((mInsert k v m).1.map Prod.snd ++ ((mInsert k v m).2).toList).Perm
      (v :: m.map Prod.snd) := by
  have h := (mInsert_entries_perm k v m).map Prod.snd
  rw [List.map_append] at h
  rcases ho : (mInsert k v m).2 with _ | w
  · rw [ho] at h
    simpa using h
  · rw [ho] at h
    simpa using h

/-- The scan's final slots plus its evictions carry exactly the scanned
elements plus the initial slots. -/
theorem lwwScan_values_perm (key : A → K) (tag : A → I) (l : List A) :
    ∀ (seen : List A) {m : List (K × A)} (ig : List I), mSorted m →
      (∀ k, mLookup k m = (keyed key k seen).getLast?) →
      ((lwwScan key tag l m ig).1.map Prod.snd ++ specEvictions key seen l).Perm
        (m.map Prod.snd ++ l) := by
  induction l with
  | nil => intro seen m ig hm hinv; simp [lwwScan, specEvictions]
  | cons x xs ih =>
    intro seen m ig hm hinv
    obtain ⟨hinv2, hev⟩ := lwwStep_inv seen x hm hinv
    simp only [lwwScan, specEvictions]
    have hIH := ih (seen ++ [x]) (m := (mInsert (key x) x m).1)
      (ig ++ (((mInsert (key x) x m).2).map tag).toList)
      (mInsert_sorted hm) hinv2
    have hM0 := mInsert_values_perm (key x) x m
    rw [hev] at hM0
    rw [← Multiset.coe_eq_coe] at hIH hM0 ⊢
    have hM : ((mInsert (key x) x m).1.map Prod.snd : Multiset A) +
        ((evictAt key seen x).toList : Multiset A) =
        x ::ₘ (m.map Prod.snd : Multiset A) := hM0
    have goal2 :
        ((lwwScan key tag xs (mInsert (key x) x m).1
            (ig ++ (((mInsert (key x) x m).2).map tag).toList)).1.map Prod.snd
              : Multiset A) +
            ((evictAt key seen x).toList + ↑(specEvictions key (seen ++ [x]) xs)) =
          (m.map Prod.snd : Multiset A) + (x ::ₘ ↑xs) := by
      have e1 : ((evictAt key seen x).toList : Multiset A) +
          ↑(specEvictions key (seen ++ [x]) xs) =
          ↑(specEvictions key (seen ++ [x]) xs) +
            ((evictAt key seen x).toList : Multiset A) := add_comm _ _
      rw [e1, ← add_assoc]
      have e2 : ((lwwScan key tag xs (mInsert (key x) x m).1
            (ig ++ (((mInsert (key x) x m).2).map tag).toList)).1.map Prod.snd
              : Multiset A) + ↑(specEvictions key (seen ++ [x]) xs) =
          ((mInsert (key x) x m).1.map Prod.snd : Multiset A) + ↑xs := hIH
      rw [e2]
      have e3 : (((mInsert (key x) x m).1.map Prod.snd : Multiset A) + ↑xs) +
          ((evictAt key seen x).toList : Multiset A) =
          (((mInsert (key x) x m).1.map Prod.snd : Multiset A) +
            ((evictAt key seen x).toList : Multiset A)) + ↑xs := by
        rw [add_assoc, add_assoc]
        rw [add_comm (↑xs : Multiset A) ((evictAt key seen x).toList : Multiset A)]
      rw [e3, hM]
      have e4 : (x ::ₘ (m.map Prod.snd : Multiset A)) + ↑xs =
          (m.map Prod.snd : Multiset A) + (x ::ₘ ↑xs) := by
        rw [← Multiset.singleton_add, ← Multiset.singleton_add]
        rw [← add_assoc, add_comm ({x} : Multiset A) _, add_assoc]
      rw [e4]
    exact goal2

/-! ## The differ: walk lemmas -/

theorem mRemove_filter {k : K} {m : List (K × V)}
    (hnd : (m.map Prod.fst).Nodup) :
    (mRemove k m).1 = m.filter (fun q => decide (q.1 ≠ k)) := by
  induction m with
  | nil => rfl
  | cons q rest ih =>
    obtain ⟨k1, v1⟩ := q
    simp only [List.map_cons, List.nodup_cons] at hnd
    by_cases h : k = k1
    · subst h
      have hall : ∀ a ∈ rest, (!decide (a.1 = k)) = true := by
        intro a ha
        simp only [Bool.not_eq_true', decide_eq_false_iff_not]
        intro hc
        exact hnd.1 (List.mem_map.2 ⟨a, ha, hc⟩)
      simp [mRemove, List.filter_cons]
      exact (List.filter_eq_self.2 hall).symm
    · simp [mRemove, if_neg h, List.filter_cons, ih hnd.2]
      rw [if_neg (fun hc => h hc.symm)]

/-- The left-only output of the walk: left-map values whose key is absent
from the right map, in left-map order. -/
theorem diffWalk_left (lm : List (K × L)) :
    ∀ (rm : List (K × R)) (dl : List L) (db : List (L × R)),
      (lm.map Prod.fst).Nodup →
      (diffWalk lm rm dl db).1 =
        dl ++ (lm.filter (fun p => (mLookup p.1 rm).isNone)).map Prod.snd := by
  induction lm with
  | nil => intro rm dl db _; simp [diffWalk]
  | cons q rest ih =>
    obtain ⟨k, v⟩ := q
    intro rm dl db hnd
    simp only [List.map_cons, List.nodup_cons] at hnd
    rcases hrem : (mRemove k rm).2 with _ | r
    · have hlk : mLookup k rm = none := by rw [← mRemove_snd, hrem]
      have hid : (mRemove k rm).1 = rm := by rw [mRemove_of_none hlk]
      simp only [diffWalk, hrem]
      rw [hid, ih rm (dl ++ [v]) db hnd.2]
      simp [List.filter_cons, hlk, List.append_assoc]
    · have hlk : mLookup k rm = some r := by rw [← mRemove_snd, hrem]
      have hcongr : ∀ p ∈ rest,
          ((mLookup p.1 (mRemove k rm).1).isNone : Bool) =
            (mLookup p.1 rm).isNone := by
        intro p hp
        have hpk : p.1 ≠ k := fun hc => hnd.1 (List.mem_map.2 ⟨p, hp, hc⟩)
        rw [mLookup_mRemove_ne hpk]
      simp only [diffWalk, hrem]
      rw [ih (mRemove k rm).1 dl (db ++ [(v, r)]) hnd.2,
        List.filter_congr hcongr]
      simp [List.filter_cons, hlk]

/-- The paired output of the walk: left-map values paired with the
right-map value of their key, in left-map order. -/
theorem diffWalk_both (lm : List (K × L)) :
    ∀ (rm : List (K × R)) (dl : List L) (db : List (L × R)),
      (lm.map Prod.fst).Nodup →
      (diffWalk lm rm dl db).2.1 =
        db ++ lm.filterMap (fun p => (mLookup p.1 rm).map (fun r => (p.2, r))) := by
  induction lm with
  | nil => intro rm dl db _; simp [diffWalk]
  | cons q rest ih =>
    obtain ⟨k, v⟩ := q
    intro rm dl db hnd
    simp only [List.map_cons, List.nodup_cons] at hnd
    rcases hrem : (mRemove k rm).2 with _ | r
    · have hlk : mLookup k rm = none := by rw [← mRemove_snd, hrem]
      have hid : (mRemove k rm).1 = rm := by rw [mRemove_of_none hlk]
      simp only [diffWalk, hrem]
      rw [hid, ih rm (dl ++ [v]) db hnd.2]
      simp [List.filterMap_cons, hlk]
    · have hlk : mLookup k rm = some r := by rw [← mRemove_snd, hrem]
      have hcongr : ∀ p ∈ rest,
          (mLookup p.1 (mRemove k rm).1).map (fun r2 => (p.2, r2)) =
            (mLookup p.1 rm).map (fun r2 => (p.2, r2)) := by
        intro p hp
        have hpk : p.1 ≠ k := fun hc => hnd.1 (List.mem_map.2 ⟨p, hp, hc⟩)
        rw [mLookup_mRemove_ne hpk]
      simp only [diffWalk, hrem]
      rw [ih (mRemove k rm).1 dl (db ++ [(v, r)]) hnd.2,
        List.filterMap_congr hcongr]
      simp [List.filterMap_cons, hlk, List.append_assoc]

/-- The residue of the right map after the walk: its entries whose key does
not occur in the left map, in right-map order. -/
theorem diffWalk_right (lm : List (K × L)) :
    ∀ (rm : List (K × R)) (dl : List L) (db : List (L × R)),
      (rm.map Prod.fst).Nodup →
      (diffWalk lm rm dl db).2.2 =
        rm.filter (fun q => (mLookup q.1 lm).isNone) := by
  induction lm with
  | nil =>
    intro rm dl db _
    simp [diffWalk, mLookup]
  | cons q rest ih =>
    obtain ⟨k, v⟩ := q
    intro rm dl db hnd
    have hsub : (((mRemove k rm).1).map Prod.fst).Nodup :=
      List.Nodup.sublist (List.Sublist.map Prod.fst (mRemove_sublist rm)) hnd
    rcases hrem : (mRemove k rm).2 with _ | r
    · have hlk : mLookup k rm = none := by rw [← mRemove_snd, hrem]
      have hid : (mRemove k rm).1 = rm := by rw [mRemove_of_none hlk]
      simp only [diffWalk, hrem]
      rw [hid, ih rm (dl ++ [v]) db hnd]
      refine List.filter_congr ?_
      intro p hp
      have hpk : p.1 ≠ k := (mLookup_eq_none_iff.1 hlk) p hp
      rw [mLookup_cons, if_neg hpk]
    · simp only [diffWalk, hrem]
      rw [ih (mRemove k rm).1 dl (db ++ [(v, r)]) hsub,
        mRemove_filter hnd, List.filter_filter]
      refine List.filter_congr ?_
      intro p hp
      by_cases hpk : p.1 = k
      · simp [mLookup_cons, hpk]
      · simp [mLookup_cons, hpk]

/-- Every element of the left map ends up in exactly one of the walk's
left-only output and its paired output. -/
theorem diffWalk_partition_left (lm : List (K × L)) :
    ∀ (rm : List (K × R)) (dl : List L) (db : List (L × R)),
      ((diffWalk lm rm dl db).1 ++
          (diffWalk lm rm dl db).2.1.map Prod.fst).Perm
        ((dl ++ db.map Prod.fst) ++ lm.map Prod.snd) := by
  induction lm with
  | nil => intro rm dl db; simp [diffWalk]
  | cons q rest ih =>
    obtain ⟨k, v⟩ := q
    intro rm dl db
    rcases hrem : (mRemove k rm).2 with _ | r
    · simp only [diffWalk, hrem]
      refine (ih _ (dl ++ [v]) db).trans ?_
      rw [← Multiset.coe_eq_coe]
      simp only [List.map_cons, ← Multiset.coe_add, ← Multiset.cons_coe,
        ← Multiset.singleton_add]
      abel
    · simp only [diffWalk, hrem]
      refine (ih _ dl (db ++ [(v, r)])).trans ?_
      rw [← Multiset.coe_eq_coe]
      simp only [List.map_cons, List.map_append, ← Multiset.coe_add,
        ← Multiset.cons_coe, ← Multiset.singleton_add]
      abel

/-- Every value of the right map ends up in exactly one of the walk's
paired output and its right residue. -/
theorem diffWalk_partition_right (lm : List (K × L)) :
    ∀ (rm : List (K × R)) (dl : List L) (db : List (L × R)),
      ((diffWalk lm rm dl db).2.1.map Prod.snd ++
          (diffWalk lm rm dl db).2.2.map Prod.snd).Perm
        (db.map Prod.snd ++ rm.map Prod.snd) := by
  induction lm with
  | nil => intro rm dl db; simp [diffWalk]
  | cons q rest ih =>
    obtain ⟨k, v⟩ := q
    intro rm dl db
    rcases hrem : (mRemove k rm).2 with _ | r
    · have hlk : mLookup k rm = none := by rw [← mRemove_snd, hrem]
      have hid : (mRemove k rm).1 = rm := by rw [mRemove_of_none hlk]
      simp only [diffWalk, hrem]
      rw [hid]
      exact ih rm (dl ++ [v]) db
    · have hperm : (rm.map Prod.snd).Perm
          (r :: ((mRemove k rm).1).map Prod.snd) :=
        mRemove_values_perm hrem
      simp only [diffWalk, hrem]
      refine (ih _ dl (db ++ [(v, r)])).trans ?_
      refine List.Perm.trans ?_
        (List.Perm.append_left (db.map Prod.snd) hperm.symm)
      rw [← Multiset.coe_eq_coe]
      simp only [List.map_append, List.map_cons, ← Multiset.coe_add,
        ← Multiset.cons_coe, ← Multiset.singleton_add]
      abel

/-! ## Unfolding `diff` -/

theorem if_isEmpty_values (rm : List (K × R)) :
    (if rm.isEmpty then ([] : List R) else rm.map Prod.snd) = rm.map Prod.snd := by
  cases rm <;> simp

theorem lwwScan_scanMap {key : A → K} {tag : A → I} (l : List A) (ig : List I) :
    (lwwScan key tag l [] ig).1 = scanMap key l :=
  lwwScan_map_congr l [] ig []

/-- The ignored log of `diff`: left-scan evictions, tagged left, followed by
right-scan evictions, tagged right. -/
theorem diff_ignored_eq (keyL : L → K) (keyR : R → K) (ls : List L) (rs : List R) :
    (diff keyL keyR ls rs).ignored =
      (specEvictions keyL [] ls).map DiffIgnored.left ++
        (specEvictions keyR [] rs).map DiffIgnored.right := by
  simp only [diff]
  rw [lwwScan_ig rs [] _ mSorted_nil (fun k => rfl),
    lwwScan_ig ls [] _ mSorted_nil (fun k => rfl)]
  simp

theorem diff_left_eq (keyL : L → K) (keyR : R → K) (ls : List L) (rs : List R) :
    (diff keyL keyR ls rs).left =
      (diffWalk (scanMap keyL ls) (scanMap keyR rs) [] []).1 := by
  simp only [diff]
  rw [lwwScan_scanMap ls [], lwwScan_scanMap rs _]

theorem diff_both_eq (keyL : L → K) (keyR : R → K) (ls : List L) (rs : List R) :
    (diff keyL keyR ls rs).both =
      (diffWalk (scanMap keyL ls) (scanMap keyR rs) [] []).2.1 := by
  simp only [diff]
  rw [lwwScan_scanMap ls [], lwwScan_scanMap rs _]

theorem diff_right_eq (keyL : L → K) (keyR : R → K) (ls : List L) (rs : List R) :
    (diff keyL keyR ls rs).right =
      ((diffWalk (scanMap keyL ls) (scanMap keyR rs) [] []).2.2).map Prod.snd := by
  simp only [diff]
  rw [lwwScan_scanMap ls [], lwwScan_scanMap rs _]
  exact if_isEmpty_values _

theorem scanMap_sorted (key : A → K) (l : List A) : mSorted (scanMap key l) :=
  lwwScan_sorted l [] mSorted_nil

theorem scanMap_entry_key (key : A → K) (l : List A) :
    ∀ q ∈ scanMap key l, key q.2 = q.1 :=
  lwwScan_entry_key l [] (by intro q hq; simp at hq)

theorem scanMap_lookup (key : A → K) (l : List A) (k : K) :
    mLookup k (scanMap key l) = (keyed key k l).getLast? := by
  rw [scanMap, lwwScan_lookup l [] mSorted_nil k]
  rcases (keyed key k l).getLast? with _ | c <;> rfl

theorem scanMap_values_perm (key : A → K) (l : List A) :
    ((scanMap key l).map Prod.snd ++ specEvictions key [] l).Perm l := by
  have h := lwwScan_values_perm key (fun a => a) l [] ([] : List A)
    mSorted_nil (fun k => rfl)
  simpa [scanMap] using h

/-! ## The swap symmetry of paired lookups -/

theorem filterMap_lookup_cons_ne {B C : Type} {k0 : K} (v0 : C)
    (mc : List (K × C)) {mb : List (K × B)}
    (h : ∀ q ∈ mb, q.1 ≠ k0) :
    mb.filterMap (fun p => (mLookup p.1 ((k0, v0) :: mc)).map (fun r => (p.2, r))) =
      mb.filterMap (fun p => (mLookup p.1 mc).map (fun r => (p.2, r))) := by
  refine List.filterMap_congr ?_
  intro p hp
  rw [mLookup_cons, if_neg (h p hp)]

/-- Pairing the left map against the right map gives the componentwise swap
of pairing the right map against the left map. -/
theorem filterMap_lookup_swap (m1 : List (K × L)) :
    ∀ (m2 : List (K × R)), mSorted m1 → mSorted m2 →
      m1.filterMap (fun p => (mLookup p.1 m2).map (fun r => (p.2, r))) =
        (m2.filterMap (fun p => (mLookup p.1 m1).map (fun l2 => (p.2, l2)))).map
          (fun q => (q.2, q.1)) := by
  induction m1 with
  | nil =>
    intro m2 _ _
    simp [mLookup_nil]
  | cons q1 r1 ih1 =>
    obtain ⟨k1, v1⟩ := q1
    intro m2 h1
    rcases mSorted_cons.1 h1 with ⟨hk1lt, hr1⟩
    induction m2 with
    | nil =>
      intro _
      simp [mLookup_nil]
    | cons q2 r2 ih2 =>
      obtain ⟨k2, v2⟩ := q2
      intro h2
      rcases mSorted_cons.1 h2 with ⟨hk2lt, hr2⟩
      rcases lt_trichotomy k1 k2 with hlt | heq | hgt
      · have hlk : mLookup k1 ((k2, v2) :: r2) = none := by
          apply mLookup_eq_none_of_lt
          intro q hq
          rcases List.mem_cons.1 hq with rfl | hq
          · exact hlt
          · exact lt_trans hlt (hk2lt q hq)
        have hne : ∀ q ∈ (k2, v2) :: r2, q.1 ≠ k1 := by
          intro q hq
          rcases List.mem_cons.1 hq with rfl | hq
          · exact ne_of_gt hlt
          · exact ne_of_gt (lt_trans hlt (hk2lt q hq))
        conv_lhs => rw [List.filterMap_cons]
        simp only [hlk, Option.map_none']
        rw [filterMap_lookup_cons_ne v1 r1 hne]
        exact ih1 ((k2, v2) :: r2) hr1 h2
      · subst heq
        have hlk1 : mLookup k1 ((k1, v2) :: r2) = some v2 := by
          rw [mLookup_cons, if_pos rfl]
        have hlk2 : mLookup k1 ((k1, v1) :: r1) = some v1 := by
          rw [mLookup_cons, if_pos rfl]
        have hner1 : ∀ q ∈ r1, q.1 ≠ k1 := fun q hq => ne_of_gt (hk1lt q hq)
        have hner2 : ∀ q ∈ r2, q.1 ≠ k1 := fun q hq => ne_of_gt (hk2lt q hq)
        rw [List.filterMap_cons, List.filterMap_cons]
        simp only [hlk1, hlk2, Option.map_some', List.map_cons]
        rw [filterMap_lookup_cons_ne v2 r2 hner1,
          filterMap_lookup_cons_ne v1 r1 hner2]
        rw [ih1 r2 hr1 hr2]
      · have hlk : mLookup k2 ((k1, v1) :: r1) = none := by
          apply mLookup_eq_none_of_lt
          intro q hq
          rcases List.mem_cons.1 hq with rfl | hq
          · exact hgt
          · exact lt_trans hgt (hk1lt q hq)
        have hne : ∀ q ∈ (k1, v1) :: r1, q.1 ≠ k2 := by
          intro q hq
          rcases List.mem_cons.1 hq with rfl | hq
          · exact ne_of_gt hgt
          · exact ne_of_gt (lt_trans hgt (hk1lt q hq))
        rw [filterMap_lookup_cons_ne v2 r2 hne]
        conv_rhs => rw [List.filterMap_cons]
        simp only [hlk, Option.map_none']
        exact ih2 hr2

/-! ## The deduplicator: retained and removed outputs -/

theorem mem_setOf {m : List (K × Value T)} {x : T} (hx : x ∈ setOf m) :
    ∃ q ∈ m, x ∈ repOf q.2 := by
  rw [setOf] at hx
  rcases List.mem_flatten.1 hx with ⟨l2, hl2, hxl⟩
  rcases List.mem_map.1 hl2 with ⟨q, hq, rfl⟩
  exact ⟨q, hq, hxl⟩

/-- The retained elements with key `k` are the representative of `k`'s slot. -/
theorem keyed_setOf {key : T → K} (k : K) {m : List (K × Value T)}
    (hm : mSorted m)
    (hkey : ∀ q ∈ m, ∀ x ∈ repOf q.2, key x = q.1) :
    keyed key k (setOf m) = ((mLookup k m).map repOf).getD [] := by
  induction m with
  | nil => simp [setOf, keyed, mLookup_nil]
  | cons q rest ih =>
    obtain ⟨k1, v1⟩ := q
    rcases mSorted_cons.1 hm with ⟨hlt, hrest⟩
    rw [setOf_cons, keyed_append]
    by_cases hk : k = k1
    · subst hk
      have h1 : keyed key k (repOf v1) = repOf v1 := by
        rw [keyed, List.filter_eq_self]
        intro a ha
        simp only [decide_eq_true_eq]
        exact hkey (k, v1) (List.mem_cons_self _ _) a ha
      have h2 : keyed key k (setOf rest) = [] := by
        rw [keyed, List.filter_eq_nil_iff]
        intro a ha
        simp only [decide_eq_true_eq]
        rcases mem_setOf ha with ⟨q, hq, haq⟩
        rw [hkey q (List.mem_cons_of_mem _ hq) a haq]
        exact ne_of_gt (hlt q hq)
      rw [h1, h2, mLookup_cons, if_pos rfl]
      simp
    · have h1 : keyed key k (repOf v1) = [] := by
        rw [keyed, List.filter_eq_nil_iff]
        intro a ha
        simp only [decide_eq_true_eq]
        rw [hkey (k1, v1) (List.mem_cons_self _ _) a ha]
        exact fun hc => hk hc.symm
      rw [h1, mLookup_cons, if_neg hk, List.nil_append]
      exact ih hrest (fun q hq => hkey q (List.mem_cons_of_mem _ hq))

theorem remOf_cons_placeholder (k : K) (m : List (K × Value T)) :
    remOf ((k, Value.Placeholder) :: m) = remOf m := by
  simp [remOf, List.filterMap_cons]

theorem remOf_mem {m : List (K × Value T)} {q : K × List T}
    (hq : q ∈ remOf m) : ∃ p ∈ m, q.1 = p.1 := by
  rw [remOf] at hq
  rcases List.mem_filterMap.1 hq with ⟨p, hp, hpq⟩
  refine ⟨p, hp, ?_⟩
  obtain ⟨pk, pv⟩ := p
  cases pv with
  | Placeholder => simp at hpq
  | Single x => simp at hpq
  | Multi vs =>
    obtain rfl : (pk, vs.dropLast) = q := by simpa using hpq
    rfl

/-- Lookup in the removed mapping: the dropped prefix of a `Multi` slot. -/
theorem mLookup_remOf {m : List (K × Value T)} (hm : mSorted m) (k : K) :
    mLookup k (remOf m) =
      match mLookup k m with
      | some (Value.Multi vs) => some vs.dropLast
      | _ => none := by
  induction m with
  | nil => simp [remOf, mLookup_nil]
  | cons q rest ih =>
    obtain ⟨k1, v1⟩ := q
    rcases mSorted_cons.1 hm with ⟨hlt, hrest⟩
    have hrest_none : mLookup k1 (remOf rest) = none := by
      rw [mLookup_eq_none_iff]
      intro q hq
      rcases remOf_mem hq with ⟨p, hp, hqp⟩
      rw [hqp]
      exact ne_of_gt (hlt p hp)
    cases v1 with
    | Placeholder =>
      rw [remOf_cons_placeholder]
      by_cases hk : k = k1
      · subst hk
        rw [mLookup_cons, if_pos rfl]
        exact hrest_none
      · rw [mLookup_cons, if_neg hk]
        exact ih hrest
    | Single x =>
      rw [remOf_cons_single]
      by_cases hk : k = k1
      · subst hk
        rw [mLookup_cons, if_pos rfl]
        exact hrest_none
      · rw [mLookup_cons, if_neg hk]
        exact ih hrest
    | Multi vs =>
      rw [remOf_cons_multi]
      by_cases hk : k = k1
      · subst hk
        rw [mLookup_cons, if_pos rfl, mLookup_cons, if_pos rfl]
      · rw [mLookup_cons, if_neg hk, mLookup_cons, if_neg hk]
        exact ih hrest

theorem perm_append_cancel_right {l1 l2 t : List A}
    (h : (l1 ++ t).Perm (l2 ++ t)) : l1.Perm l2 := by
  rw [← Multiset.coe_eq_coe] at h ⊢
  have h2 : (l1 : Multiset A) + (t : Multiset A) =
      (l2 : Multiset A) + (t : Multiset A) := h
  exact add_right_cancel h2

theorem dedupStep_sorted {key : T → K} {m m2 : List (K × Value T)} {x : T}
    (hm : mSorted m) (h : dedupStep key m x = some m2) : mSorted m2 := by
  rw [dedupStep] at h
  rcases hl : mLookup (key x) m with _ | v
  · rw [hl] at h
    obtain rfl : (mInsert (key x) (Value.Single x) m).1 = m2 := by simpa using h
    exact mInsert_sorted hm
  · rw [hl] at h
    cases v with
    | Placeholder => simp at h
    | Single w =>
      obtain rfl : (mInsert (key x) (Value.Multi [w, x]) m).1 = m2 := by
        simpa using h
      exact mInsert_sorted hm
    | Multi vs =>
      obtain rfl : (mInsert (key x) (Value.Multi (vs ++ [x])) m).1 = m2 := by
        simpa using h
      exact mInsert_sorted hm

/-- One build step adds exactly the new element to the stored contents. -/
theorem dedupStep_allElems {key : T → K} {m m2 : List (K × Value T)} {x : T}
    (hm : mSorted m) (h : dedupStep key m x = some m2) :
    (allElems m2).Perm (x :: allElems m) := by
  rw [dedupStep] at h
  rcases hl : mLookup (key x) m with _ | v
  · rw [hl] at h
    obtain rfl : (mInsert (key x) (Value.Single x) m).1 = m2 := by simpa using h
    have hperm := mInsert_entries_perm (key x) (Value.Single x) m
    rw [mInsert_snd hm, hl] at hperm
    have h2 := (hperm.map (fun q => elemsOf q.2)).flatten
    simpa [allElems, elemsOf] using h2
  · rw [hl] at h
    cases v with
    | Placeholder => simp at h
    | Single w =>
      obtain rfl : (mInsert (key x) (Value.Multi [w, x]) m).1 = m2 := by
        simpa using h
      have hperm := mInsert_entries_perm (key x) (Value.Multi [w, x]) m
      rw [mInsert_snd hm, hl] at hperm
      have h2 := (hperm.map (fun q => elemsOf q.2)).flatten
      simp only [List.map_append, List.flatten_append, List.map_cons,
        List.flatten_cons, elemsOf] at h2
      have h3 : (allElems (mInsert (key x) (Value.Multi [w, x]) m).1 ++ [w]).Perm
          (w :: x :: allElems m) := by
        simpa [allElems, elemsOf] using h2
      have h4 : (w :: allElems (mInsert (key x) (Value.Multi [w, x]) m).1).Perm
          (w :: x :: allElems m) :=
        (List.perm_append_singleton w _).symm.trans h3
      exact h4.cons_inv
    | Multi vs =>
      obtain rfl : (mInsert (key x) (Value.Multi (vs ++ [x])) m).1 = m2 := by
        simpa using h
      have hperm := mInsert_entries_perm (key x) (Value.Multi (vs ++ [x])) m
      rw [mInsert_snd hm, hl] at hperm
      have h2 := (hperm.map (fun q => elemsOf q.2)).flatten
      have h3 : (allElems (mInsert (key x) (Value.Multi (vs ++ [x])) m).1 ++
          vs).Perm ((x :: allElems m) ++ vs) := by
        refine List.Perm.trans (by simpa [allElems, elemsOf] using h2) ?_
        rw [← Multiset.coe_eq_coe]
        simp only [← Multiset.coe_add, ← Multiset.cons_coe,
          ← Multiset.singleton_add]
        abel
      exact perm_append_cancel_right h3

/-- The whole first loop stores exactly the scanned elements. -/
theorem dedupBuild_allElems {key : T → K} (l : List T) :
    ∀ {m m2 : List (K × Value T)}, mSorted m →
      dedupBuild key l m = some m2 → (allElems m2).Perm (l ++ allElems m) := by
  induction l with
  | nil =>
    intro m m2 _ h
    obtain rfl : m = m2 := by simpa [dedupBuild] using h
    simp
  | cons x xs ih =>
    intro m m2 hm h
    rw [dedupBuild] at h
    rcases hstep : dedupStep key m x with _ | m1
    · rw [hstep] at h
      simp at h
    · rw [hstep] at h
      have h1 := ih (dedupStep_sorted hm hstep) h
      have h2 := dedupStep_allElems hm hstep
      refine h1.trans ?_
      refine List.Perm.trans (List.Perm.append_left xs h2) ?_
      exact (List.perm_middle).trans (List.Perm.refl _)

/-- Retained plus removed elements are exactly the stored contents. -/
theorem setOf_remOf_perm (m : List (K × Value T)) :
    (setOf m ++ ((remOf m).map Prod.snd).flatten).Perm (allElems m) := by
  induction m with
  | nil => simp [setOf, remOf, allElems]
  | cons q rest ih =>
    obtain ⟨k, v⟩ := q
    cases v with
    | Placeholder =>
      rw [setOf_cons, remOf_cons_placeholder, allElems_cons]
      simpa [repOf, elemsOf] using ih
    | Single x =>
      rw [setOf_cons, remOf_cons_single, allElems_cons]
      simp only [repOf, elemsOf, List.cons_append, List.nil_append,
        List.singleton_append]
      exact ih.cons x
    | Multi vs =>
      rw [setOf_cons, remOf_cons_multi, allElems_cons]
      have hvs : (vs.getLast?.toList ++ vs.dropLast).Perm vs := by
        rcases hvse : vs.getLast? with _ | a
        · have hnil : vs = [] := by
            simpa [List.getLast?_eq_none_iff] using hvse
          subst hnil
          simp
        · have hne : vs ≠ [] := by
            rintro rfl
            simp at hvse
          rw [List.getLast?_eq_getLast vs hne] at hvse
          obtain rfl : vs.getLast hne = a := by simpa using hvse
          refine List.perm_append_comm.trans ?_
          show (vs.dropLast ++ [vs.getLast hne]).Perm vs
          rw [List.dropLast_concat_getLast hne]
      simp only [repOf, elemsOf, List.map_cons, List.flatten_cons]
      rw [← Multiset.coe_eq_coe] at ih hvs ⊢
      have ih2 : ((setOf rest : List T) : Multiset T) +
          ↑(((remOf rest).map Prod.snd).flatten) = ↑(allElems rest) := ih
      have hvs2 : ((vs.getLast?.toList : List T) : Multiset T) +
          ↑vs.dropLast = (vs : Multiset T) := hvs
      show ((vs.getLast?.toList : List T) : Multiset T) + ↑(setOf rest) +
          (↑vs.dropLast + ↑(((remOf rest).map Prod.snd).flatten)) =
        (vs : Multiset T) + ↑(allElems rest)
      rw [← ih2, ← hvs2]
      abel

theorem repOf_length_le (v : Value T) : (repOf v).length ≤ 1 := by
  cases v with
  | Placeholder => simp [repOf]
  | Single x => simp [repOf]
  | Multi vs =>
    simp only [repOf]
    cases h : vs.getLast? <;> simp [h]

/-- The retained keys are a subsequence of the map keys. -/
theorem setOf_keys_sublist {key : T → K} {m : List (K × Value T)}
    (hkey : ∀ q ∈ m, ∀ x ∈ repOf q.2, key x = q.1) :
    ((setOf m).map key).Sublist (m.map Prod.fst) := by
  induction m with
  | nil => simp [setOf]
  | cons q rest ih =>
    obtain ⟨k, v⟩ := q
    rw [setOf_cons, List.map_append, List.map_cons]
    have hsub := ih (fun q hq => hkey q (List.mem_cons_of_mem _ hq))
    rcases hrep : repOf v with _ | ⟨x, rest2⟩
    · simp only [List.map_nil, List.nil_append]
      exact hsub.cons _
    · have hlen := repOf_length_le v
      rw [hrep] at hlen
      have h0 : rest2 = [] := by
        simp only [List.length_cons] at hlen
        exact List.length_eq_zero.1 (by omega)
      subst h0
      have hx : key x = k := by
        refine hkey (k, v) (List.mem_cons_self _ _) x ?_
        rw [hrep]
        exact List.mem_singleton_self x
      simp only [List.map_cons, List.map_nil, List.cons_append,
        List.nil_append, hx]
      exact hsub.cons₂ _

/-- The removed keys are a subsequence of the map keys. -/
theorem remOf_keys_sublist (m : List (K × Value T)) :
    ((remOf m).map Prod.fst).Sublist (m.map Prod.fst) := by
  induction m with
  | nil => simp [remOf]
  | cons q rest ih =>
    obtain ⟨k, v⟩ := q
    cases v with
    | Placeholder =>
      rw [remOf_cons_placeholder, List.map_cons]
      exact ih.cons _
    | Single x =>
      rw [remOf_cons_single, List.map_cons]
      exact ih.cons _
    | Multi vs =>
      rw [remOf_cons_multi, List.map_cons, List.map_cons]
      exact ih.cons₂ _

/-- Values of entries of a keyed map carry their entry key. -/
theorem entry_keys_eq {keyA : A → K} {s : List (K × A)}
    (hkey : ∀ q ∈ s, keyA q.2 = q.1) :
    (s.map Prod.snd).map keyA = s.map Prod.fst := by
  induction s with
  | nil => rfl
  | cons q rest ih =>
    obtain ⟨k, v⟩ := q
    simp only [List.map_cons]
    rw [hkey (k, v) (List.mem_cons_self _ _),
      ih (fun q hq => hkey q (List.mem_cons_of_mem _ hq))]

/-- The keys of the paired output form a subsequence of the left-map keys. -/
theorem both_keys_sublist {keyA : A → K} {m1 : List (K × A)}
    {m2 : List (K × R)} (hkey : ∀ q ∈ m1, keyA q.2 = q.1) :
    ((m1.filterMap (fun p => (mLookup p.1 m2).map (fun r => (p.2, r)))).map
        (fun p => keyA p.1)).Sublist (m1.map Prod.fst) := by
  induction m1 with
  | nil => simp
  | cons q rest ih =>
    obtain ⟨k, v⟩ := q
    have hsub := ih (fun q hq => hkey q (List.mem_cons_of_mem _ hq))
    have hkv : keyA v = k := hkey (k, v) (List.mem_cons_self _ _)
    rcases hlk : mLookup k m2 with _ | r
    · rw [List.filterMap_cons]
      simp only [hlk, Option.map_none', List.map_cons]
      exact hsub.cons _
    · rw [List.filterMap_cons]
      simp only [hlk, Option.map_some', List.map_cons, hkv]
      exact hsub.cons₂ _

/-! ## Claim-level helpers -/

theorem keyed_mem_key {key : T → K} {k : K} {l : List T} {x : T}
    (hx : x ∈ keyed key k l) : key x = k := by
  have h := List.of_mem_filter hx
  simpa using h

/-- Every slot representative of the build map carries the slot's key. -/
theorem dedup_map_rep_keys {key : T → K} {l : List T} {m : List (K × Value T)}
    (hinv : ∀ k, mLookup k m = valueOf (keyed key k l)) (hm : mSorted m) :
    ∀ q ∈ m, ∀ x ∈ repOf q.2, key x = q.1 := by
  intro q hq x hx
  have hnd := mSorted_keys_nodup hm
  have hv : valueOf (keyed key q.1 l) = some q.2 := by
    obtain ⟨k2, v2⟩ := q
    rw [← hinv k2]
    exact mLookup_of_mem hnd hq
  cases hq2 : q.2 with
  | Placeholder =>
    rw [hq2] at hx
    simp [repOf] at hx
  | Single y =>
    rw [hq2] at hx hv
    have hkeyed := valueOf_eq_single hv
    obtain rfl : x = y := by simpa [repOf] using hx
    refine keyed_mem_key (l := l) ?_
    rw [hkeyed]
    exact List.mem_singleton_self x
  | Multi vs =>
    rw [hq2] at hx hv
    obtain ⟨hkeyed, -⟩ := valueOf_eq_multi hv
    simp only [repOf] at hx
    have hsome : vs.getLast? = some x := by
      rcases hlg : vs.getLast? with _ | a
      · rw [hlg] at hx
        simp at hx
      · rw [hlg] at hx
        obtain rfl : x = a := by simpa using hx
        rfl
    have hmem := mem_of_getLast?_eq hsome
    refine keyed_mem_key (l := l) ?_
    rw [hkeyed]
    exact hmem

theorem leftIgnored_eq (a : List L) (b : List R) :
    leftIgnored (a.map DiffIgnored.left ++ b.map DiffIgnored.right) = a := by
  rw [leftIgnored, List.filterMap_append]
  have h1 : List.filterMap (fun i : DiffIgnored L R =>
      match i with
      | DiffIgnored.left x => some x
      | DiffIgnored.right _ => none)
        (a.map (DiffIgnored.left : L → DiffIgnored L R)) = a := by
    induction a with
    | nil => rfl
    | cons x xs ih =>
      rw [List.map_cons, List.filterMap_cons]
      simpa using ih
  have h2 : List.filterMap (fun i : DiffIgnored L R =>
      match i with
      | DiffIgnored.left x => some x
      | DiffIgnored.right _ => none)
        (b.map (DiffIgnored.right : R → DiffIgnored L R)) = [] := by
    induction b with
    | nil => rfl
    | cons x xs ih =>
      rw [List.map_cons, List.filterMap_cons]
      simpa using ih
  rw [h1, h2, List.append_nil]

theorem rightIgnored_eq (a : List L) (b : List R) :
    rightIgnored (a.map DiffIgnored.left ++ b.map DiffIgnored.right) = b := by
  rw [rightIgnored, List.filterMap_append]
  have h1 : List.filterMap (fun i : DiffIgnored L R =>
      match i with
      | DiffIgnored.left _ => none
      | DiffIgnored.right x => some x)
        (a.map (DiffIgnored.left : L → DiffIgnored L R)) = [] := by
    induction a with
    | nil => rfl
    | cons x xs ih =>
      rw [List.map_cons, List.filterMap_cons]
      simpa using ih
  have h2 : List.filterMap (fun i : DiffIgnored L R =>
      match i with
      | DiffIgnored.left _ => none
      | DiffIgnored.right x => some x)
        (b.map (DiffIgnored.right : R → DiffIgnored L R)) = b := by
    induction b with
    | nil => rfl
    | cons x xs ih =>
      rw [List.map_cons, List.filterMap_cons]
      simpa using ih
  rw [h1, h2, List.nil_append]

/-- The removed-list formula, by cases on the occurrence list's shape. -/
theorem valueOf_case_formula (xs : List T) :
    (match valueOf xs with
      | some (Value.Multi vs) => some vs.dropLast
      | _ => none) =
    if 2 ≤ xs.length then some xs.dropLast else none := by
  match xs with
  | [] => simp [valueOf]
  | [a] => simp [valueOf]
  | a :: b :: t =>
    have hc : 2 ≤ (a :: b :: t).length := by
      simp only [List.length_cons]
      omega
    rw [if_pos hc]
    rfl

/-! ## Claims -/

/-- C1: for every input sequence, the retained `set` of `dedup` contains,
for each key, exactly the last input element with that key: filtering the
retained output by any key `k` yields the last element of the input's
`k`-occurrence list (and nothing when `k` does not occur). -/
theorem dedup_retains_last (key : T → K) (l : List T) (d : Dedup T K)
    (h : dedup key l = some d) (k : K) :
    keyed key k d.set = ((keyed key k l).getLast?).toList := by
  obtain ⟨m, hb, hm, hinv, hd⟩ := dedup_eq_setOf key l
  rw [h] at hd
  obtain rfl : d = ⟨setOf m, remOf m⟩ := Option.some.inj hd
  have hkey := dedup_map_rep_keys hinv hm
  show keyed key k (setOf m) = ((keyed key k l).getLast?).toList
  rw [keyed_setOf k hm hkey, hinv k]
  rcases keyed key k l with _ | ⟨a, _ | ⟨b, t⟩⟩ <;> simp [valueOf, repOf]

/-- Witness for C1: key 1 occurs twice in `[1, 1, 2]`; the retained set
`[1, 2]` holds its last occurrence. -/
theorem dedup_retains_last_witness :
    keyed (fun n : Nat => n) 1
        (Dedup.set (⟨[1, 2], [(1, [1])]⟩ : Dedup Nat Nat)) =
      ((keyed (fun n : Nat => n) 1 [1, 1, 2]).getLast?).toList :=
  dedup_retains_last (fun n => n) [1, 1, 2] ⟨[1, 2], [(1, [1])]⟩ (by decide) 1

/-- C2: the ignored log of `diff` is built with last-write-wins semantics:
each side's evictions (the latest earlier element with the arriving
element's key) appear in eviction order, every left-side entry before every
right-side entry, tagged with its side. -/
theorem diff_ignored_spec (keyL : L → K) (keyR : R → K) (ls : List L)
    (rs : List R) :
    (diff keyL keyR ls rs).ignored =
      (specEvictions keyL [] ls).map DiffIgnored.left ++
        (specEvictions keyR [] rs).map DiffIgnored.right :=
  diff_ignored_eq keyL keyR ls rs

/-- C3: the left output, the first components of the paired output and the
left-tagged ignored entries together are a permutation of the left input;
symmetrically for the right input. -/
theorem diff_partition (keyL : L → K) (keyR : R → K) (ls : List L)
    (rs : List R) :
    ((diff keyL keyR ls rs).left ++
        (diff keyL keyR ls rs).both.map Prod.fst ++
        leftIgnored (diff keyL keyR ls rs).ignored).Perm ls ∧
      ((diff keyL keyR ls rs).right ++
        (diff keyL keyR ls rs).both.map Prod.snd ++
        rightIgnored (diff keyL keyR ls rs).ignored).Perm rs := by
  have hig := diff_ignored_eq keyL keyR ls rs
  have hIL : leftIgnored (diff keyL keyR ls rs).ignored =
      specEvictions keyL [] ls := by
    rw [hig, leftIgnored_eq]
  have hIR : rightIgnored (diff keyL keyR ls rs).ignored =
      specEvictions keyR [] rs := by
    rw [hig, rightIgnored_eq]
  constructor
  · have hwalk := diffWalk_partition_left (scanMap keyL ls) (scanMap keyR rs)
      [] []
    have h1 : ((diffWalk (scanMap keyL ls) (scanMap keyR rs) [] []).1 ++
        (diffWalk (scanMap keyL ls) (scanMap keyR rs) [] []).2.1.map
          Prod.fst).Perm ((scanMap keyL ls).map Prod.snd) := by
      simpa using hwalk
    rw [diff_left_eq, diff_both_eq, hIL]
    refine List.Perm.trans ?_ (scanMap_values_perm keyL ls)
    exact h1.append_right _
  · have hwalk := diffWalk_partition_right (scanMap keyL ls) (scanMap keyR rs)
      [] []
    have h1 : ((diffWalk (scanMap keyL ls) (scanMap keyR rs) [] []).2.1.map
        Prod.snd ++
        (diffWalk (scanMap keyL ls) (scanMap keyR rs) [] []).2.2.map
          Prod.snd).Perm ((scanMap keyR rs).map Prod.snd) := by
      simpa using hwalk
    rw [diff_right_eq, diff_both_eq, hIR]
    refine List.Perm.trans ?_ (scanMap_values_perm keyR rs)
    refine List.Perm.append_right _ ?_
    exact List.perm_append_comm.trans h1

/-- C4: the duplicate report contains exactly the keys occurring at least
twice, each mapped to its exact occurrence count, and the empty input
yields the empty report. -/
theorem get_dups_spec (key : T → K) (l : List T) :
    get_dups key ([] : List T) = [] ∧
      ∀ k : K, mLookup k (get_dups key l) =
        if 2 ≤ countKey key k l then some (countKey key k l) else none :=
  ⟨rfl, fun k => get_dups_lookup key l k⟩

/-- C5: the retained elements together with all removed lists reproduce
exactly the multiset of input elements. -/
theorem dedup_multiset_preserved (key : T → K) (l : List T) (d : Dedup T K)
    (h : dedup key l = some d) :
    (d.set ++ ((d.removed.map Prod.snd).flatten)).Perm l := by
  obtain ⟨m, hb, hm, hinv, hd⟩ := dedup_eq_setOf key l
  rw [h] at hd
  obtain rfl : d = ⟨setOf m, remOf m⟩ := Option.some.inj hd
  have h1 := setOf_remOf_perm m
  have h2 := dedupBuild_allElems l mSorted_nil hb
  refine List.Perm.trans h1 (h2.trans ?_)
  simp [allElems]

/-- Witness for C5 at `[1, 1, 2]`. -/
theorem dedup_multiset_preserved_witness :
    ((Dedup.set (⟨[1, 2], [(1, [1])]⟩ : Dedup Nat Nat)) ++
        (((⟨[1, 2], [(1, [1])]⟩ : Dedup Nat Nat).removed.map
          Prod.snd).flatten)).Perm [1, 1, 2] :=
  dedup_multiset_preserved (fun n => n) [1, 1, 2] ⟨[1, 2], [(1, [1])]⟩
    (by decide)

/-- C6: a key maps to a removed list exactly when it occurs at least twice;
the removed list is then the occurrence list minus its last element, in
original order (so its length is the count minus one), and keys occurring
once are absent from the mapping. -/
theorem dedup_removed_spec (key : T → K) (l : List T) (d : Dedup T K)
    (h : dedup key l = some d) (k : K) :
    mLookup k d.removed =
      if 2 ≤ countKey key k l then some ((keyed key k l).dropLast)
      else none := by
  obtain ⟨m, hb, hm, hinv, hd⟩ := dedup_eq_setOf key l
  rw [h] at hd
  obtain rfl : d = ⟨setOf m, remOf m⟩ := Option.some.inj hd
  show mLookup k (remOf m) = _
  rw [mLookup_remOf hm k, hinv k, valueOf_case_formula (keyed key k l)]
  simp only [countKey]

/-- Witness for C6: in `[1, 1, 2]`, key 1 occurs twice so `removed` maps it
to its first occurrence. -/
theorem dedup_removed_spec_witness :
    mLookup 1 (Dedup.removed (⟨[1, 2], [(1, [1])]⟩ : Dedup Nat Nat)) =
      if 2 ≤ countKey (fun n : Nat => n) 1 [1, 1, 2] then
        some ((keyed (fun n : Nat => n) 1 [1, 1, 2]).dropLast)
      else none :=
  dedup_removed_spec (fun n => n) [1, 1, 2] ⟨[1, 2], [(1, [1])]⟩
    (by decide) 1

/-- C7: `diff` is anti-symmetric: swapping the inputs swaps the left and
right outputs and reverses each pair of the paired output. -/
theorem diff_antisymm (keyL : L → K) (keyR : R → K) (ls : List L)
    (rs : List R) :
    (diff keyL keyR ls rs).left = (diff keyR keyL rs ls).right ∧
      (diff keyL keyR ls rs).right = (diff keyR keyL rs ls).left ∧
      (diff keyL keyR ls rs).both =
        ((diff keyR keyL rs ls).both.map (fun p => (p.2, p.1))) := by
  have hLs := scanMap_sorted keyL ls
  have hRs := scanMap_sorted keyR rs
  have hLnd := mSorted_keys_nodup hLs
  have hRnd := mSorted_keys_nodup hRs
  refine ⟨?_, ?_, ?_⟩
  · rw [diff_left_eq, diff_right_eq,
      diffWalk_left (scanMap keyL ls) (scanMap keyR rs) [] [] hLnd,
      diffWalk_right (scanMap keyR rs) (scanMap keyL ls) [] [] hLnd]
    simp
  · rw [diff_right_eq, diff_left_eq,
      diffWalk_right (scanMap keyL ls) (scanMap keyR rs) [] [] hRnd,
      diffWalk_left (scanMap keyR rs) (scanMap keyL ls) [] [] hRnd]
    simp
  · rw [diff_both_eq, diff_both_eq,
      diffWalk_both (scanMap keyL ls) (scanMap keyR rs) [] [] hLnd,
      diffWalk_both (scanMap keyR rs) (scanMap keyL ls) [] [] hRnd]
    simp only [List.nil_append]
    exact filterMap_lookup_swap (scanMap keyL ls) (scanMap keyR rs) hLs hRs

/-- C8: every key-ordered output is strictly ascending in keys: the
retained sequence and removed mapping of `dedup`, and the left-only,
paired and right-only outputs of `diff`. -/
theorem outputs_key_ascending (key : T → K) (l : List T) (d : Dedup T K)
    (h : dedup key l = some d) (keyL : L → K) (keyR : R → K)
    (ls : List L) (rs : List R) :
    (d.set.map key).Sorted (· < ·) ∧
      (d.removed.map Prod.fst).Sorted (· < ·) ∧
      ((diff keyL keyR ls rs).left.map keyL).Sorted (· < ·) ∧
      ((diff keyL keyR ls rs).both.map (fun p => keyL p.1)).Sorted (· < ·) ∧
      ((diff keyL keyR ls rs).right.map keyR).Sorted (· < ·) := by
  obtain ⟨m, hb, hm, hinv, hd⟩ := dedup_eq_setOf key l
  rw [h] at hd
  obtain rfl : d = ⟨setOf m, remOf m⟩ := Option.some.inj hd
  have hkey := dedup_map_rep_keys hinv hm
  refine ⟨?_, ?_, ?_, ?_, ?_⟩
  · exact List.Pairwise.sublist (setOf_keys_sublist hkey) hm
  · exact List.Pairwise.sublist (remOf_keys_sublist m) hm
  · rw [diff_left_eq,
      diffWalk_left (scanMap keyL ls) (scanMap keyR rs) [] []
        (mSorted_keys_nodup (scanMap_sorted keyL ls))]
    simp only [List.nil_append]
    rw [entry_keys_eq
      (fun q hq => scanMap_entry_key keyL ls q (List.mem_of_mem_filter hq))]
    exact List.Pairwise.sublist
      (List.Sublist.map Prod.fst (List.filter_sublist _))
      (scanMap_sorted keyL ls)
  · rw [diff_both_eq,
      diffWalk_both (scanMap keyL ls) (scanMap keyR rs) [] []
        (mSorted_keys_nodup (scanMap_sorted keyL ls))]
    simp only [List.nil_append]
    exact List.Pairwise.sublist (both_keys_sublist (scanMap_entry_key keyL ls))
      (scanMap_sorted keyL ls)
  · rw [diff_right_eq,
      diffWalk_right (scanMap keyL ls) (scanMap keyR rs) [] []
        (mSorted_keys_nodup (scanMap_sorted keyR rs))]
    rw [entry_keys_eq
      (fun q hq => scanMap_entry_key keyR rs q (List.mem_of_mem_filter hq))]
    exact List.Pairwise.sublist
      (List.Sublist.map Prod.fst (List.filter_sublist _))
      (scanMap_sorted keyR rs)

/-- Witness for C8 at concrete inputs. -/
theorem outputs_key_ascending_witness :
    (((⟨[1, 2], [(1, [1])]⟩ : Dedup Nat Nat).set.map
        (fun n : Nat => n)).Sorted (· < ·)) ∧
      (((⟨[1, 2], [(1, [1])]⟩ : Dedup Nat Nat).removed.map
        Prod.fst).Sorted (· < ·)) ∧
      (((diff (Prod.fst : Nat × Nat → Nat) Prod.fst [(2, 0), (1, 1)]
        [(2, 5)]).left.map Prod.fst).Sorted (· < ·)) ∧
      (((diff (Prod.fst : Nat × Nat → Nat) Prod.fst [(2, 0), (1, 1)]
        [(2, 5)]).both.map (fun p => p.1.1)).Sorted (· < ·)) ∧
      (((diff (Prod.fst : Nat × Nat → Nat) Prod.fst [(2, 0), (1, 1)]
        [(2, 5)]).right.map Prod.fst).Sorted (· < ·)) :=
  outputs_key_ascending (fun n => n) [1, 1, 2] ⟨[1, 2], [(1, [1])]⟩
    (by decide) Prod.fst Prod.fst [(2, 0), (1, 1)] [(2, 5)]

/-- C9: `dedup` is total and panic-free — the `unreachable!()` arms and the
`unwrap` are never hit, so it always returns a result (and `get_dups` and
`diff` are total functions by construction). -/
theorem dedup_total (key : T → K) (l : List T) :
    (dedup key l).isSome = true := by
  obtain ⟨m, hb, hm, hinv, hd⟩ := dedup_eq_setOf key l
  rw [hd]
  rfl

/-- C10: `with_key` preserves length and input order, the i-th wrapper
holds the i-th input element together with `f` of that element, and key
extraction on a wrapper returns exactly the stored key. -/
theorem with_key_spec (l : List T) (f : T → K) :
    (with_key l f).length = l.length ∧
      ∀ i : Nat, ((with_key l f)[i]?).map WithKey.item = l[i]? ∧
        ((with_key l f)[i]?).map WithKey.get_item_key = (l[i]?).map f := by
  refine ⟨by simp [with_key], ?_⟩
  intro i
  rw [with_key, List.getElem?_map]
  constructor
  · rcases l[i]? with _ | x <;> rfl
  · rcases l[i]? with _ | x <;> rfl

end BsListUtils

